import Mathlib

/-!
Verification of the topic-modelling pipeline core: the persistent embedding
cache and batch resolver of `04_embed_story_keywords.ipynb`, and the resumable
keyword-extraction driver of `03_extract_story_keywords.ipynb`.

Vectors are treated as an abstract type `V`; the float32 coercion
`np.asarray(vector, dtype=np.float32)` is an abstract function `coerce : V → V`.
The external `compute_embeddings` is a parameter returning `Except E (List V)`,
an error standing for a raised exception.
-/

/-- Lookup in an association list keyed by strings (first match), as a Python
dict lookup or an exact-string-match table read. -/
def lookupKV {V : Type} (d : List (String × V)) (k : String) : Option V :=
  (d.find? (fun p => decide (p.1 = k))).map (fun p => p.2)

/-- Insert-or-replace one binding: if the key is present its value is replaced
in place, otherwise the binding is appended (Python dict assignment / upsert). -/
def insertKV {V : Type} (d : List (String × V)) (k : String) (v : V) : List (String × V) :=
  if d.any (fun p => decide (p.1 = k)) then
    d.map (fun p => if p.1 = k then (k, v) else p)
  else d ++ [(k, v)]

/-- Upsert a batch of bindings left to right; a key repeated within the batch
ends at its last occurrence's value (dict.update / batch upsert). -/
def updateKV {V : Type} (d : List (String × V)) (ps : List (String × V)) : List (String × V) :=
  ps.foldl (fun m p => insertKV m p.1 p.2) d

/-- The keys of an association list, in order. -/
def keysKV {V : Type} (d : List (String × V)) : List String :=
  d.map (fun p => p.1)

/-- Helper for `uniqueFirst`: keep each element not already seen, threading the
set of seen elements. -/
def uniqueFirstAux : List String → List String → List String
  | [], _ => []
  | k :: ks, seen =>
    if k ∈ seen then uniqueFirstAux ks seen
    else k :: uniqueFirstAux ks (k :: seen)

/-- Deduplication keeping the first occurrence of each element, in order
(the behaviour of `pandas.unique` on object series). -/
def uniqueFirst (l : List String) : List String :=
  uniqueFirstAux l []

/-- Modelled from the spec: `EmbeddingStore.get_embeddings` of the missing
`embeddingio.py` — returns only the subset of requested keywords present in
the store, duplicates in the request deduplicated, at most one entry per
distinct keyword, absent keywords omitted without error. -/
def getEmbeddings {V : Type} (store : List (String × V)) (kws : List String) :
    List (String × V) :=
  (uniqueFirst kws).filterMap (fun k => (lookupKV store k).map (fun v => (k, v)))

/-- Modelled from the spec: `EmbeddingStore.add_embeddings` of the missing
`embeddingio.py` — upserts all pairs as one atomic batch, the last occurrence
of a repeated keyword winning. -/
def addEmbeddings {V : Type} (store : List (String × V)) (pairs : List (String × V)) :
    List (String × V) :=
  updateKV store pairs

/-- Fuel-indexed helper for `chunksOf`; with fuel at least the list length and
a positive `B` it produces all consecutive slices. -/
def chunksOfAux {α : Type} (B : Nat) : Nat → List α → List (List α)
  | 0, _ => []
  | _, [] => []
  | fuel + 1, x :: xs => (x :: xs).take B :: chunksOfAux B fuel ((x :: xs).drop B)

/-- Consecutive slices of size at most `B` (`keywords_to_process[i:i+B]` for
`i in range(0, len, B)`); for `B = 0` (where Python `range` raises) we return
no chunks. -/
def chunksOf {α : Type} (B : Nat) (l : List α) : List (List α) :=
  if B = 0 then [] else chunksOfAux B l.length l

/-- Outcome of running the batch embedding loop: the final store contents, the
accumulated `final_keyword_embeddings` dict, the trace of argument lists passed
to `compute_embeddings` (in call order), and the exception, if one escaped. -/
structure RunOut (V E : Type) where
  store : List (String × V)
  acc : List (String × V)
  calls : List (List String)
  err : Option E
deriving Repr, DecidableEq

/-- The `new_keywords_to_compute` list: the chunk keywords not among the keys of the
fetched existing embeddings (`[k for k in batch_keywords if k not in
keywords_already_processed]`). -/
def newToCompute {V : Type} (s : List (String × V)) (c : List String) : List String :=
  c.filter (fun k => decide (k ∉ keysKV (getEmbeddings s c)))

/-- The batch embedding loop of `04_embed_story_keywords.ipynb`, one iteration
per chunk: fetch existing embeddings, merge them into the accumulator, compute
the chunk keywords not already processed, coerce each returned vector, store
the new pairs as one batch, and continue; a raise from `compute_embeddings`
aborts the loop with the store as committed so far. -/
def runChunks {V E : Type} (compute : List String → Except E (List V)) (coerce : V → V) :
    List (List String) → List (String × V) → List (String × V) → RunOut V E
  | [], s, a => ⟨s, a, [], none⟩
  | c :: cs, s, a =>
    let existing := getEmbeddings s c
    let a1 := updateKV a existing
    let newKws := newToCompute s c
    if newKws.isEmpty then runChunks compute coerce cs s a1
    else
      match compute newKws with
      | Except.error e => ⟨s, a1, [newKws], some e⟩
      | Except.ok vs =>
        let pairs := (newKws.zip vs).map (fun p => (p.1, coerce p.2))
        let a2 := updateKV a1 pairs
        let s2 := if pairs.isEmpty then s else addEmbeddings s pairs
        let r := runChunks compute coerce cs s2 a2
        ⟨r.store, r.acc, newKws :: r.calls, r.err⟩

/-- The whole embedding-generation cell: chunk the keyword list with
`BATCH_SIZE = B` and run the loop from an empty accumulator dict. -/
def resolve {V E : Type} (B : Nat) (compute : List String → Except E (List V))
    (coerce : V → V) (store : List (String × V)) (kws : List String) : RunOut V E :=
  runChunks compute coerce (chunksOf B kws) store []

/-! ### Basic lemmas about the association-list operations -/

theorem lookupKV_isSome_iff {V : Type} (d : List (String × V)) (k : String) :
    (lookupKV d k).isSome ↔ k ∈ keysKV d := by
  simp [lookupKV, keysKV, List.find?_isSome, List.mem_map]

theorem lookupKV_eq_none_iff {V : Type} (d : List (String × V)) (k : String) :
    lookupKV d k = none ↔ k ∉ keysKV d := by
  rw [← lookupKV_isSome_iff, Option.not_isSome_iff_eq_none]

theorem keysKV_replace {V : Type} (d : List (String × V)) (k : String) (v : V) :
    keysKV (d.map (fun p => if p.1 = k then (k, v) else p)) = keysKV d := by
  induction d with
  | nil => rfl
  | cons p d ih =>
    simp only [keysKV, List.map_cons] at ih ⊢
    by_cases h : p.1 = k
    · rw [if_pos h]
      simp [ih, h]
    · rw [if_neg h]
      simp [ih]

theorem keysKV_insertKV {V : Type} (d : List (String × V)) (k : String) (v : V) (x : String) :
    x ∈ keysKV (insertKV d k v) ↔ x ∈ keysKV d ∨ x = k := by
  unfold insertKV
  by_cases h : d.any (fun p => decide (p.1 = k)) = true
  · rw [if_pos h, keysKV_replace]
    have hk : k ∈ keysKV d := by
      rcases List.any_eq_true.mp h with ⟨p, hp, hpk⟩
      simp only [decide_eq_true_eq] at hpk
      exact hpk ▸ List.mem_map_of_mem _ hp
    constructor
    · exact Or.inl
    · rintro (hx | rfl)
      · exact hx
      · exact hk
  · rw [if_neg h]
    simp [keysKV]

theorem keysKV_updateKV {V : Type} (d : List (String × V)) (ps : List (String × V)) (x : String) :
    x ∈ keysKV (updateKV d ps) ↔ x ∈ keysKV d ∨ x ∈ keysKV ps := by
  induction ps generalizing d with
  | nil => simp [updateKV, keysKV]
  | cons p ps ih =>
    show x ∈ keysKV (updateKV (insertKV d p.1 p.2) ps) ↔ _
    rw [ih, keysKV_insertKV]
    simp [keysKV]
    tauto

theorem lookupKV_updateKV_isSome {V : Type} (d : List (String × V)) (ps : List (String × V))
    (k : String) (h : (lookupKV d k).isSome) : (lookupKV (updateKV d ps) k).isSome := by
  rw [lookupKV_isSome_iff] at h ⊢
  exact (keysKV_updateKV d ps k).mpr (Or.inl h)

theorem lookupKV_updateKV_isSome_of_mem {V : Type} (d : List (String × V))
    (ps : List (String × V)) (k : String) (h : k ∈ keysKV ps) :
    (lookupKV (updateKV d ps) k).isSome := by
  rw [lookupKV_isSome_iff]
  exact (keysKV_updateKV d ps k).mpr (Or.inr h)

theorem mem_uniqueFirstAux (l : List String) (seen : List String) (x : String) :
    x ∈ uniqueFirstAux l seen ↔ x ∈ l ∧ x ∉ seen := by
  induction l generalizing seen with
  | nil => simp [uniqueFirstAux]
  | cons k ks ih =>
    rw [uniqueFirstAux]
    by_cases hk : k ∈ seen
    · rw [if_pos hk, ih]
      constructor
      · rintro ⟨hx, hxs⟩
        exact ⟨List.mem_cons_of_mem _ hx, hxs⟩
      · rintro ⟨hx, hxs⟩
        rcases List.mem_cons.mp hx with rfl | hx
        · exact absurd hk hxs
        · exact ⟨hx, hxs⟩
    · rw [if_neg hk]
      simp only [List.mem_cons, ih, List.mem_cons]
      constructor
      · rintro (rfl | ⟨hx, hxs⟩)
        · exact ⟨Or.inl rfl, hk⟩
        · exact ⟨Or.inr hx, fun h => hxs (Or.inr h)⟩
      · rintro ⟨rfl | hx, hxs⟩
        · exact Or.inl rfl
        · by_cases hxk : x = k
          · exact Or.inl hxk
          · exact Or.inr ⟨hx, fun h => (by rcases h with h | h; exact hxk h; exact hxs h)⟩

theorem mem_uniqueFirst (l : List String) (x : String) : x ∈ uniqueFirst l ↔ x ∈ l := by
  rw [uniqueFirst, mem_uniqueFirstAux]
  simp

theorem uniqueFirstAux_nodup (l : List String) (seen : List String) :
    (uniqueFirstAux l seen).Nodup := by
  induction l generalizing seen with
  | nil => simp [uniqueFirstAux]
  | cons k ks ih =>
    rw [uniqueFirstAux]
    by_cases hk : k ∈ seen
    · rw [if_pos hk]
      exact ih seen
    · rw [if_neg hk]
      refine List.nodup_cons.mpr ⟨?_, ih (k :: seen)⟩
      intro hmem
      exact ((mem_uniqueFirstAux _ _ _).mp hmem).2 (List.mem_cons_self k seen)

theorem uniqueFirst_nodup (l : List String) : (uniqueFirst l).Nodup :=
  uniqueFirstAux_nodup l []

/-- Membership in the keys of a `get_embeddings` result: exactly the requested
keywords that are present in the store. -/
theorem mem_keys_getEmbeddings {V : Type} (s : List (String × V)) (c : List String)
    (k : String) : k ∈ keysKV (getEmbeddings s c) ↔ k ∈ c ∧ (lookupKV s k).isSome := by
  simp only [getEmbeddings, keysKV, List.mem_map]
  constructor
  · rintro ⟨p, hp, hpk⟩
    rcases List.mem_filterMap.mp hp with ⟨q, hq, hmap⟩
    rcases Option.map_eq_some'.mp hmap with ⟨v, hv, hpv⟩
    subst hpv
    simp only at hpk
    subst hpk
    exact ⟨(mem_uniqueFirst c q).mp hq, by rw [hv]; rfl⟩
  · rintro ⟨hkc, hks⟩
    rcases Option.isSome_iff_exists.mp hks with ⟨v, hv⟩
    exact ⟨(k, v), List.mem_filterMap.mpr ⟨k, (mem_uniqueFirst c k).mpr hkc, by rw [hv]; rfl⟩, rfl⟩

/-- A keyword is in `new_keywords_to_compute` for a chunk exactly when it is in
the chunk and has no vector in the store. -/
theorem mem_newToCompute {V : Type} (s : List (String × V)) (c : List String) (k : String) :
    k ∈ newToCompute s c ↔ k ∈ c ∧ lookupKV s k = none := by
  simp only [newToCompute, List.mem_filter, decide_eq_true_eq, mem_keys_getEmbeddings]
  constructor
  · rintro ⟨hkc, hmem⟩
    refine ⟨hkc, ?_⟩
    rw [← Option.not_isSome_iff_eq_none]
    intro hs
    exact hmem ⟨hkc, hs⟩
  · rintro ⟨hkc, hnone⟩
    refine ⟨hkc, ?_⟩
    rintro ⟨-, hs⟩
    rw [hnone] at hs
    simp at hs

/-- Keys present in the store stay present over the whole run: the loop only
adds records, never removes them. -/
theorem runChunks_store_mono {V E : Type} (compute : List String → Except E (List V))
    (coerce : V → V) (cs : List (List String)) (s a : List (String × V)) (k : String)
    (h : (lookupKV s k).isSome) :
    (lookupKV (runChunks compute coerce cs s a).store k).isSome := by
  induction cs generalizing s a with
  | nil => exact h
  | cons c cs ih =>
    rw [runChunks]
    by_cases he : (newToCompute s c).isEmpty
    · rw [if_pos he]
      exact ih s _ h
    · rw [if_neg he]
      cases hc : compute (newToCompute s c) with
      | error e => exact h
      | ok vs =>
        by_cases hp : (((newToCompute s c).zip vs).map
            (fun p => (p.1, coerce p.2))).isEmpty
        · simp only [hp, if_pos]
          exact ih _ _ h
        · simp only [hp, if_neg, Bool.false_eq_true, not_false_eq_true]
          exact ih _ _ (lookupKV_updateKV_isSome s _ k h)

/-- A keyword already present in the store never appears in any argument list
passed to the external compute function during the run. -/
theorem runChunks_calls_avoid_present {V E : Type}
    (compute : List String → Except E (List V)) (coerce : V → V)
    (cs : List (List String)) (s a : List (String × V)) (k : String)
    (h : (lookupKV s k).isSome) :
    ∀ args ∈ (runChunks compute coerce cs s a).calls, k ∉ args := by
  induction cs generalizing s a with
  | nil =>
    intro args hargs
    simp [runChunks] at hargs
  | cons c cs ih =>
    rw [runChunks]
    by_cases he : (newToCompute s c).isEmpty
    · rw [if_pos he]
      exact ih s _ h
    · rw [if_neg he]
      have hknew : k ∉ newToCompute s c := by
        intro hk
        rcases (mem_newToCompute s c k).mp hk with ⟨-, hnone⟩
        rw [hnone] at h
        simp at h
      cases hc : compute (newToCompute s c) with
      | error e =>
        intro args hargs
        simp only [List.mem_singleton] at hargs
        subst hargs
        exact hknew
      | ok vs =>
        intro args hargs
        simp only [List.mem_cons] at hargs
        rcases hargs with rfl | hargs
        · exact hknew
        · by_cases hp : (((newToCompute s c).zip vs).map
              (fun p => (p.1, coerce p.2))).isEmpty
          · simp only [hp, if_pos] at hargs
            exact ih _ _ h args hargs
          · simp only [hp, if_neg, Bool.false_eq_true, not_false_eq_true] at hargs
            exact ih _ _ (lookupKV_updateKV_isSome s _ k h) args hargs

/-- The `new_keywords_to_compute` list is the chunk filtered to the keywords with no
vector in the store, keeping the chunk's order and multiplicity. -/
theorem newToCompute_eq_filter {V : Type} (s : List (String × V)) (c : List String) :
    newToCompute s c = c.filter (fun k => (lookupKV s k).isNone) := by
  unfold newToCompute
  apply List.filter_congr
  intro k hk
  by_cases hs : (lookupKV s k).isSome
  · have h1 : k ∈ keysKV (getEmbeddings s c) := (mem_keys_getEmbeddings s c k).mpr ⟨hk, hs⟩
    have h2 : (lookupKV s k).isNone = false := by
      rcases Option.isSome_iff_exists.mp hs with ⟨v, hv⟩
      rw [hv]
      rfl
    rw [h2, decide_eq_false]
    simpa using h1
  · have hnone : lookupKV s k = none := Option.not_isSome_iff_eq_none.mp hs
    have h1 : k ∉ keysKV (getEmbeddings s c) := by
      intro hmem
      exact hs ((mem_keys_getEmbeddings s c k).mp hmem).2
    rw [hnone]
    simp [h1]

/-! ### Claim C1 -/

/-- C1: for every store state and requested keyword list, a keyword K that
already has a vector in the Embedding Store when the resolve starts (and hence
when each of its chunks is processed, the store only growing) never appears in
any argument list passed to the external `compute_embeddings` during that
resolve. -/
theorem c1_stored_keyword_never_recomputed {V E : Type} (B : Nat)
    (compute : List String → Except E (List V)) (coerce : V → V)
    (store : List (String × V)) (kws : List String) (K : String)
    (h : (lookupKV store K).isSome) :
    ∀ args ∈ (resolve B compute coerce store kws).calls, K ∉ args :=
  runChunks_calls_avoid_present compute coerce (chunksOf B kws) store [] K h

theorem c1_stored_keyword_never_recomputed_witness :
    (lookupKV [("ai", ([1] : List Int))] "ai").isSome = true ∧
    ∀ args ∈ (resolve 2
      (fun l => (Except.ok (l.map (fun _ => [0])) : Except Unit (List (List Int))))
      (fun v => v) [("ai", [1])] ["ai", "rust", "ai"]).calls, "ai" ∉ args :=
  ⟨by decide, c1_stored_keyword_never_recomputed 2
    (fun l => (Except.ok (l.map (fun _ => [0])) : Except Unit (List (List Int))))
    (fun v => v) [("ai", [1])] ["ai", "rust", "ai"] "ai" (by decide)⟩

/-! ### Claim C5 -/

/-- C5, counterexample to the claim as stated: processing the chunk
`["ai", "ai"]` against an empty store hands `compute_embeddings` the list
`["ai", "ai"]`, in which the distinct keyword "ai" appears twice — the loop
does not deduplicate within a chunk. -/
theorem c5_counterexample_duplicate_kept :
    (resolve 2
      (fun l => (Except.ok (l.map (fun _ => [0])) : Except Unit (List (List Int))))
      (fun v => v) [] ["ai", "ai"]).calls = [["ai", "ai"]] ∧
    ¬ (["ai", "ai"] : List String).Nodup := by
  constructor
  · decide
  · decide

/-! ### Claim C4 -/

/-- C4: from an empty store, resolving `["ai", "rust", "ai"]` with batch size 2
calls compute exactly once, with `["ai", "rust"]`; with the compute result
`[v1, v2]` (already of the fixed precision, i.e. fixed points of the coercion),
the final mapping is `{"ai": v1, "rust": v2}`, the store holds exactly those
two records, and no error occurs. -/
theorem c4_concrete_scenario {V E : Type} (compute : List String → Except E (List V))
    (coerce : V → V) (v1 v2 : V)
    (hc : compute ["ai", "rust"] = Except.ok [v1, v2])
    (h1 : coerce v1 = v1) (h2 : coerce v2 = v2) :
    resolve 2 compute coerce [] ["ai", "rust", "ai"] =
      ⟨[("ai", v1), ("rust", v2)], [("ai", v1), ("rust", v2)], [["ai", "rust"]], none⟩ := by
  simp [resolve, runChunks, newToCompute, getEmbeddings, uniqueFirst, uniqueFirstAux,
        lookupKV, keysKV, addEmbeddings, updateKV, insertKV, chunksOf, chunksOfAux,
        hc, h1, h2]

theorem c4_concrete_scenario_witness :
    resolve 2
      (fun l => if l = ["ai", "rust"]
        then (Except.ok [[1], [2]] : Except Unit (List (List Int)))
        else Except.error ())
      (fun v => v) [] ["ai", "rust", "ai"] =
      ⟨[("ai", [1]), ("rust", [2])], [("ai", [1]), ("rust", [2])], [["ai", "rust"]], none⟩ :=
  c4_concrete_scenario
    (fun l => if l = ["ai", "rust"]
      then (Except.ok [[1], [2]] : Except Unit (List (List Int)))
      else Except.error ())
    (fun v => v) [1] [2] rfl rfl rfl

/-! ### Membership lemmas for the value-provenance invariant -/

theorem mem_insertKV {V : Type} (d : List (String × V)) (k0 : String) (v0 : V)
    (p : String × V) (h : p ∈ insertKV d k0 v0) : p ∈ d ∨ p = (k0, v0) := by
  unfold insertKV at h
  by_cases ha : d.any (fun q => decide (q.1 = k0)) = true
  · rw [if_pos ha] at h
    rcases List.mem_map.mp h with ⟨q, hq, hqp⟩
    by_cases hq1 : q.1 = k0
    · rw [if_pos hq1] at hqp
      exact Or.inr hqp.symm
    · rw [if_neg hq1] at hqp
      exact Or.inl (hqp ▸ hq)
  · rw [if_neg ha] at h
    rcases List.mem_append.mp h with h | h
    · exact Or.inl h
    · exact Or.inr (List.mem_singleton.mp h)

theorem mem_updateKV {V : Type} (d : List (String × V)) (ps : List (String × V))
    (p : String × V) (h : p ∈ updateKV d ps) : p ∈ d ∨ p ∈ ps := by
  induction ps generalizing d with
  | nil => exact Or.inl h
  | cons q ps ih =>
    rcases ih (insertKV d q.1 q.2) h with h1 | h1
    · rcases mem_insertKV d q.1 q.2 p h1 with h2 | h2
      · exact Or.inl h2
      · exact Or.inr (h2 ▸ List.mem_cons_self q ps)
    · exact Or.inr (List.mem_cons_of_mem q h1)

theorem mem_getEmbeddings {V : Type} (s : List (String × V)) (c : List String)
    (p : String × V) (h : p ∈ getEmbeddings s c) : lookupKV s p.1 = some p.2 := by
  unfold getEmbeddings at h
  rcases List.mem_filterMap.mp h with ⟨k, -, hmap⟩
  rcases Option.map_eq_some'.mp hmap with ⟨v, hv, hpv⟩
  rw [← hpv]
  exact hv

theorem lookupKV_eq_some_mem {V : Type} (d : List (String × V)) (k : String) (v : V)
    (h : lookupKV d k = some v) : (k, v) ∈ d := by
  unfold lookupKV at h
  rcases Option.map_eq_some'.mp h with ⟨p, hp, hpv⟩
  have hmem := List.mem_of_find?_eq_some hp
  have hkey := List.find?_some hp
  simp only [decide_eq_true_eq] at hkey
  have : p = (k, v) := by
    rcases p with ⟨pk, pv⟩
    simp only at hkey hpv
    rw [hkey, hpv]
  exact this ▸ hmem

/-- Every record of the final store and every binding of the final accumulator
either already was a record of the initial store or carries a vector in the
image of the coercion: raw compute results are coerced before any use. -/
theorem runChunks_values_coerced {V E : Type} (compute : List String → Except E (List V))
    (coerce : V → V) (s0 : List (String × V)) (cs : List (List String))
    (s a : List (String × V))
    (hs : ∀ p ∈ s, p ∈ s0 ∨ ∃ raw, p.2 = coerce raw)
    (ha : ∀ p ∈ a, p ∈ s0 ∨ ∃ raw, p.2 = coerce raw) :
    (∀ p ∈ (runChunks compute coerce cs s a).store, p ∈ s0 ∨ ∃ raw, p.2 = coerce raw) ∧
    (∀ p ∈ (runChunks compute coerce cs s a).acc, p ∈ s0 ∨ ∃ raw, p.2 = coerce raw) := by
  induction cs generalizing s a with
  | nil => exact ⟨hs, ha⟩
  | cons c cs ih =>
    have ha1 : ∀ p ∈ updateKV a (getEmbeddings s c), p ∈ s0 ∨ ∃ raw, p.2 = coerce raw := by
      intro p hp
      rcases mem_updateKV _ _ p hp with hp1 | hp1
      · exact ha p hp1
      · exact hs p (lookupKV_eq_some_mem s p.1 p.2 (by
          rcases p with ⟨pk, pv⟩
          exact mem_getEmbeddings s c _ hp1))
    rw [runChunks]
    by_cases he : (newToCompute s c).isEmpty
    · rw [if_pos he]
      exact ih s _ hs ha1
    · rw [if_neg he]
      cases hcm : compute (newToCompute s c) with
      | error e => exact ⟨hs, ha1⟩
      | ok vs =>
        have hpairs : ∀ p ∈ ((newToCompute s c).zip vs).map (fun p => (p.1, coerce p.2)),
            p ∈ s0 ∨ ∃ raw, p.2 = coerce raw := by
          intro p hp
          rcases List.mem_map.mp hp with ⟨q, -, hqp⟩
          exact Or.inr ⟨q.2, by rw [← hqp]⟩
        have ha2 : ∀ p ∈ updateKV (updateKV a (getEmbeddings s c))
            (((newToCompute s c).zip vs).map (fun p => (p.1, coerce p.2))),
            p ∈ s0 ∨ ∃ raw, p.2 = coerce raw := by
          intro p hp
          rcases mem_updateKV _ _ p hp with hp1 | hp1
          · exact ha1 p hp1
          · exact hpairs p hp1
        by_cases hp : (((newToCompute s c).zip vs).map (fun p => (p.1, coerce p.2))).isEmpty
        · simp only [hp, if_pos]
          exact ih s _ hs ha2
        · simp only [hp, if_neg, Bool.false_eq_true, not_false_eq_true]
          refine ih _ _ ?_ ha2
          intro p hpm
          rcases mem_updateKV _ _ p hpm with hp1 | hp1
          · exact hs p hp1
          · exact hpairs p hp1

/-! ### Claim C7 -/

/-- C7: every vector a resolve puts into the store and every vector it places
in the accumulated result mapping is either a vector that was already a record
of the initial store or the coercion (`np.asarray(..., dtype=np.float32)`) of
some raw value — a raw compute result is never stored or returned uncoerced. -/
theorem c7_vectors_coerced_before_use {V E : Type} (B : Nat)
    (compute : List String → Except E (List V)) (coerce : V → V)
    (store : List (String × V)) (kws : List String) :
    (∀ p ∈ (resolve B compute coerce store kws).store,
      p ∈ store ∨ ∃ raw, p.2 = coerce raw) ∧
    (∀ p ∈ (resolve B compute coerce store kws).acc,
      p ∈ store ∨ ∃ raw, p.2 = coerce raw) :=
  runChunks_values_coerced compute coerce store (chunksOf B kws) store []
    (fun p hp => Or.inl hp) (fun p hp => by simp at hp)

theorem c7_vectors_coerced_before_use_witness :
    ("ai", ([5] : List Int)) ∈ (resolve 1
      (fun l => (Except.ok (l.map (fun _ => [5])) : Except Unit (List (List Int))))
      (fun v => v) [] ["ai"]).store ∧
    (("ai", ([5] : List Int)) ∈ ([] : List (String × List Int)) ∨
      ∃ raw, ([5] : List Int) = (fun v => v) raw) :=
  ⟨by decide, (c7_vectors_coerced_before_use 1
    (fun l => (Except.ok (l.map (fun _ => [5])) : Except Unit (List (List Int))))
    (fun v => v) [] ["ai"]).1 ("ai", [5]) (by decide)⟩

/-! ### Lemmas for chunk isolation and retry (C2) -/

theorem runChunks_cons_skip {V E : Type} (compute : List String → Except E (List V))
    (coerce : V → V) (c : List String) (cs : List (List String))
    (s a : List (String × V)) (he : (newToCompute s c).isEmpty = true) :
    runChunks compute coerce (c :: cs) s a =
      runChunks compute coerce cs s (updateKV a (getEmbeddings s c)) := by
  rw [runChunks, if_pos he]

theorem runChunks_cons_error {V E : Type} (compute : List String → Except E (List V))
    (coerce : V → V) (c : List String) (cs : List (List String))
    (s a : List (String × V)) (e : E) (he : ¬ (newToCompute s c).isEmpty = true)
    (hc : compute (newToCompute s c) = Except.error e) :
    runChunks compute coerce (c :: cs) s a =
      ⟨s, updateKV a (getEmbeddings s c), [newToCompute s c], some e⟩ := by
  rw [runChunks, if_neg he, hc]

theorem runChunks_cons_ok {V E : Type} (compute : List String → Except E (List V))
    (coerce : V → V) (c : List String) (cs : List (List String))
    (s a : List (String × V)) (vs : List V) (he : ¬ (newToCompute s c).isEmpty = true)
    (hc : compute (newToCompute s c) = Except.ok vs) :
    runChunks compute coerce (c :: cs) s a =
      ⟨(runChunks compute coerce cs
          (if (((newToCompute s c).zip vs).map (fun p => (p.1, coerce p.2))).isEmpty then s
            else addEmbeddings s (((newToCompute s c).zip vs).map (fun p => (p.1, coerce p.2))))
          (updateKV (updateKV a (getEmbeddings s c))
            (((newToCompute s c).zip vs).map (fun p => (p.1, coerce p.2))))).store,
        (runChunks compute coerce cs
          (if (((newToCompute s c).zip vs).map (fun p => (p.1, coerce p.2))).isEmpty then s
            else addEmbeddings s (((newToCompute s c).zip vs).map (fun p => (p.1, coerce p.2))))
          (updateKV (updateKV a (getEmbeddings s c))
            (((newToCompute s c).zip vs).map (fun p => (p.1, coerce p.2))))).acc,
        newToCompute s c :: (runChunks compute coerce cs
          (if (((newToCompute s c).zip vs).map (fun p => (p.1, coerce p.2))).isEmpty then s
            else addEmbeddings s (((newToCompute s c).zip vs).map (fun p => (p.1, coerce p.2))))
          (updateKV (updateKV a (getEmbeddings s c))
            (((newToCompute s c).zip vs).map (fun p => (p.1, coerce p.2))))).calls,
        (runChunks compute coerce cs
          (if (((newToCompute s c).zip vs).map (fun p => (p.1, coerce p.2))).isEmpty then s
            else addEmbeddings s (((newToCompute s c).zip vs).map (fun p => (p.1, coerce p.2))))
          (updateKV (updateKV a (getEmbeddings s c))
            (((newToCompute s c).zip vs).map (fun p => (p.1, coerce p.2))))).err⟩ := by
  rw [runChunks, if_neg he, hc]

/-- Splitting a run whose first part finishes without error: the run of the
concatenation is the first run continued by the run of the rest from the
first run's store and accumulator, with the call traces concatenated. -/
theorem runChunks_append_ok {V E : Type} (compute : List String → Except E (List V))
    (coerce : V → V) (xs ys : List (List String)) (s a : List (String × V))
    (hpre : (runChunks compute coerce xs s a).err = none) :
    runChunks compute coerce (xs ++ ys) s a =
      ⟨(runChunks compute coerce ys (runChunks compute coerce xs s a).store
          (runChunks compute coerce xs s a).acc).store,
       (runChunks compute coerce ys (runChunks compute coerce xs s a).store
          (runChunks compute coerce xs s a).acc).acc,
       (runChunks compute coerce xs s a).calls ++
         (runChunks compute coerce ys (runChunks compute coerce xs s a).store
          (runChunks compute coerce xs s a).acc).calls,
       (runChunks compute coerce ys (runChunks compute coerce xs s a).store
          (runChunks compute coerce xs s a).acc).err⟩ := by
  induction xs generalizing s a with
  | nil =>
    simp only [List.nil_append, runChunks, List.nil_append]
  | cons c xs ih =>
    rw [List.cons_append]
    by_cases he : (newToCompute s c).isEmpty
    · rw [runChunks_cons_skip compute coerce c xs s a he] at hpre ⊢
      rw [runChunks_cons_skip compute coerce c (xs ++ ys) s a he]
      exact ih _ _ hpre
    · cases hc : compute (newToCompute s c) with
      | error e =>
        rw [runChunks_cons_error compute coerce c xs s a e he hc] at hpre
        simp at hpre
      | ok vs =>
        rw [runChunks_cons_ok compute coerce c xs s a vs he hc] at hpre ⊢
        rw [runChunks_cons_ok compute coerce c (xs ++ ys) s a vs he hc]
        simp only at hpre ⊢
        rw [ih _ _ hpre]
        simp

theorem keysKV_chunkPairs {V : Type} (coerce : V → V) (l : List String) (vs : List V)
    (h : vs.length = l.length) :
    keysKV ((l.zip vs).map (fun p => (p.1, coerce p.2))) = l := by
  induction l generalizing vs with
  | nil => rfl
  | cons x l ih =>
    cases vs with
    | nil => simp at h
    | cons v vs =>
      simp only [List.length_cons, Nat.succ.injEq] at h
      simp only [List.zip_cons_cons, List.map_cons, keysKV] at ih ⊢
      rw [ih vs h]

theorem chunkPairs_isEmpty_false {V : Type} (coerce : V → V) (l : List String)
    (vs : List V) (hne : l ≠ []) (h : vs.length = l.length) :
    ((l.zip vs).map (fun p => (p.1, coerce p.2))).isEmpty = false := by
  cases l with
  | nil => exact absurd rfl hne
  | cons x l =>
    cases vs with
    | nil => simp at h
    | cons v vs => rfl

/-- In an error-free run in which compute always returns one vector per
requested keyword, every keyword of every chunk ends up present in the final
store. -/
theorem runChunks_ok_covers {V E : Type} (compute : List String → Except E (List V))
    (coerce : V → V)
    (hlen : ∀ l vs, compute l = Except.ok vs → vs.length = l.length)
    (cs : List (List String)) (s a : List (String × V))
    (h : (runChunks compute coerce cs s a).err = none) :
    ∀ k ∈ cs.flatten, (lookupKV (runChunks compute coerce cs s a).store k).isSome := by
  induction cs generalizing s a with
  | nil =>
    intro k hk
    simp at hk
  | cons c cs ih =>
    intro k hk
    rw [List.flatten_cons, List.mem_append] at hk
    by_cases he : (newToCompute s c).isEmpty
    · rw [runChunks_cons_skip compute coerce c cs s a he] at h ⊢
      rcases hk with hk | hk
      · have hnil : newToCompute s c = [] := List.isEmpty_iff.mp he
        have hne : lookupKV s k ≠ none := by
          intro hnone
          have hmem : k ∈ newToCompute s c := (mem_newToCompute s c k).mpr ⟨hk, hnone⟩
          rw [hnil] at hmem
          simp at hmem
        exact runChunks_store_mono compute coerce cs s _ k
          (Option.ne_none_iff_isSome.mp hne)
      · exact ih _ _ h k hk
    · cases hc : compute (newToCompute s c) with
      | error e =>
        rw [runChunks_cons_error compute coerce c cs s a e he hc] at h
        simp at h
      | ok vs =>
        have hlen2 := hlen _ _ hc
        have hne : newToCompute s c ≠ [] := fun hn => he (by rw [hn]; rfl)
        have hpe := chunkPairs_isEmpty_false coerce (newToCompute s c) vs hne hlen2
        rw [runChunks_cons_ok compute coerce c cs s a vs he hc] at h ⊢
        simp only [hpe, Bool.false_eq_true, if_false] at h ⊢
        rcases hk with hk | hk
        · by_cases hsk : (lookupKV s k).isSome
          · exact runChunks_store_mono compute coerce cs _ _ k
              (lookupKV_updateKV_isSome s _ k hsk)
          · have hnone : lookupKV s k = none := Option.not_isSome_iff_eq_none.mp hsk
            have hmem : k ∈ newToCompute s c := (mem_newToCompute s c k).mpr ⟨hk, hnone⟩
            have hmemp : k ∈ keysKV (((newToCompute s c).zip vs).map
                (fun p => (p.1, coerce p.2))) := by
              rw [keysKV_chunkPairs coerce _ vs hlen2]
              exact hmem
            exact runChunks_store_mono compute coerce cs _ _ k
              (lookupKV_updateKV_isSome_of_mem s _ k hmemp)
        · exact ih _ _ h k hk

/-- A run in which compute succeeds on every non-empty argument list finishes
without error. -/
theorem runChunks_err_none {V E : Type} (compute : List String → Except E (List V))
    (coerce : V → V)
    (hok : ∀ l : List String, l ≠ [] → ∃ vs, compute l = Except.ok vs)
    (cs : List (List String)) (s a : List (String × V)) :
    (runChunks compute coerce cs s a).err = none := by
  induction cs generalizing s a with
  | nil => rfl
  | cons c cs ih =>
    by_cases he : (newToCompute s c).isEmpty
    · rw [runChunks_cons_skip compute coerce c cs s a he]
      exact ih _ _
    · have hne : newToCompute s c ≠ [] := fun hn => he (by rw [hn]; rfl)
      rcases hok _ hne with ⟨vs, hvs⟩
      rw [runChunks_cons_ok compute coerce c cs s a vs he hvs]
      exact ih _ _

/-- Every keyword of every compute-call argument list belongs to some chunk of
the run and was missing from the store the run started from. -/
theorem runChunks_calls_missing {V E : Type} (compute : List String → Except E (List V))
    (coerce : V → V) (cs : List (List String)) (s a : List (String × V)) :
    ∀ args ∈ (runChunks compute coerce cs s a).calls,
      ∀ k ∈ args, k ∈ cs.flatten ∧ lookupKV s k = none := by
  induction cs generalizing s a with
  | nil =>
    intro args hargs
    simp [runChunks] at hargs
  | cons c cs ih =>
    intro args hargs k hk
    by_cases he : (newToCompute s c).isEmpty
    · rw [runChunks_cons_skip compute coerce c cs s a he] at hargs
      rcases ih _ _ args hargs k hk with ⟨hj, hn⟩
      exact ⟨by rw [List.flatten_cons, List.mem_append]; exact Or.inr hj, hn⟩
    · cases hc : compute (newToCompute s c) with
      | error e =>
        rw [runChunks_cons_error compute coerce c cs s a e he hc] at hargs
        simp only [List.mem_singleton] at hargs
        subst hargs
        rcases (mem_newToCompute s c k).mp hk with ⟨hkc, hnone⟩
        exact ⟨by rw [List.flatten_cons, List.mem_append]; exact Or.inl hkc, hnone⟩
      | ok vs =>
        rw [runChunks_cons_ok compute coerce c cs s a vs he hc] at hargs
        simp only [List.mem_cons] at hargs
        rcases hargs with rfl | hargs
        · rcases (mem_newToCompute s c k).mp hk with ⟨hkc, hnone⟩
          exact ⟨by rw [List.flatten_cons, List.mem_append]; exact Or.inl hkc, hnone⟩
        · rcases ih _ _ args hargs k hk with ⟨hj, hn⟩
          refine ⟨by rw [List.flatten_cons, List.mem_append]; exact Or.inr hj, ?_⟩
          by_cases hsk : (lookupKV s k).isSome
          · exfalso
            by_cases hpe : (((newToCompute s c).zip vs).map
                (fun p => (p.1, coerce p.2))).isEmpty
            · rw [if_pos hpe] at hn
              rw [hn] at hsk
              simp at hsk
            · rw [if_neg hpe] at hn
              have := lookupKV_updateKV_isSome s
                (((newToCompute s c).zip vs).map (fun p => (p.1, coerce p.2))) k hsk
              rw [show addEmbeddings s (((newToCompute s c).zip vs).map
                (fun p => (p.1, coerce p.2))) = updateKV s (((newToCompute s c).zip vs).map
                (fun p => (p.1, coerce p.2))) from rfl] at hn
              rw [hn] at this
              simp at this
          · exact Option.not_isSome_iff_eq_none.mp hsk

/-! ### Claim C2 -/

/-- C2: if the external compute call raises on chunk `cn` of a resolve (the
chunks being `cs1 ++ cn :: cs2`, with the prefix `cs1` failure-free and
compute returning one vector per keyword), then (1) the resolve surfaces that
error, (2) its final store is exactly the prefix run's store, so every keyword
of the chunks before `cn` is durably stored, (3) no chunk after `cn` is
attempted — the call trace is the prefix trace plus the one failing call — and
(4) re-running the same resolve with a now-succeeding compute completes
without error and passes to compute only keywords of `cn` and later chunks
that are still missing from the store left by the failed run. -/
theorem c2_chunk_failure_isolation_and_retry {V E : Type} (B : Nat) (kws : List String)
    (compute1 compute2 : List String → Except E (List V)) (coerce : V → V)
    (s0 : List (String × V)) (cs1 : List (List String)) (cn : List String)
    (cs2 : List (List String)) (e : E)
    (hsplit : chunksOf B kws = cs1 ++ cn :: cs2)
    (hlen1 : ∀ l vs, compute1 l = Except.ok vs → vs.length = l.length)
    (hpre : (runChunks compute1 coerce cs1 s0 []).err = none)
    (hmiss : newToCompute (runChunks compute1 coerce cs1 s0 []).store cn ≠ [])
    (hfail : compute1 (newToCompute (runChunks compute1 coerce cs1 s0 []).store cn) =
      Except.error e)
    (hok2 : ∀ l : List String, l ≠ [] → ∃ vs, compute2 l = Except.ok vs) :
    (resolve B compute1 coerce s0 kws).err = some e ∧
    (resolve B compute1 coerce s0 kws).store =
      (runChunks compute1 coerce cs1 s0 []).store ∧
    (∀ k ∈ cs1.flatten, (lookupKV (resolve B compute1 coerce s0 kws).store k).isSome) ∧
    (resolve B compute1 coerce s0 kws).calls =
      (runChunks compute1 coerce cs1 s0 []).calls ++
        [newToCompute (runChunks compute1 coerce cs1 s0 []).store cn] ∧
    (resolve B compute2 coerce (resolve B compute1 coerce s0 kws).store kws).err = none ∧
    (∀ args ∈ (resolve B compute2 coerce
        (resolve B compute1 coerce s0 kws).store kws).calls,
      ∀ k ∈ args, k ∈ (cn :: cs2).flatten ∧
        lookupKV (resolve B compute1 coerce s0 kws).store k = none) := by
  have he : ¬ (newToCompute (runChunks compute1 coerce cs1 s0 []).store cn).isEmpty = true :=
    fun h => hmiss (List.isEmpty_iff.mp h)
  have hr : resolve B compute1 coerce s0 kws =
      runChunks compute1 coerce (cs1 ++ cn :: cs2) s0 [] := by
    rw [resolve, hsplit]
  have hA := runChunks_append_ok compute1 coerce cs1 (cn :: cs2) s0 [] hpre
  have hy := runChunks_cons_error compute1 coerce cn cs2
    (runChunks compute1 coerce cs1 s0 []).store
    (runChunks compute1 coerce cs1 s0 []).acc e he hfail
  have hrun : resolve B compute1 coerce s0 kws =
      ⟨(runChunks compute1 coerce cs1 s0 []).store,
        updateKV (runChunks compute1 coerce cs1 s0 []).acc
          (getEmbeddings (runChunks compute1 coerce cs1 s0 []).store cn),
        (runChunks compute1 coerce cs1 s0 []).calls ++
          [newToCompute (runChunks compute1 coerce cs1 s0 []).store cn],
        some e⟩ := by
    rw [hr, hA, hy]
  have hcov := runChunks_ok_covers compute1 coerce hlen1 cs1 s0 [] hpre
  refine ⟨by rw [hrun], by rw [hrun], ?_, by rw [hrun], ?_, ?_⟩
  · intro k hk
    rw [hrun]
    exact hcov k hk
  · rw [resolve]
    exact runChunks_err_none compute2 coerce hok2 (chunksOf B kws) _ []
  · intro args hargs k hk
    rw [hrun, resolve, hsplit] at hargs
    rcases runChunks_calls_missing compute2 coerce (cs1 ++ cn :: cs2)
      (runChunks compute1 coerce cs1 s0 []).store [] args hargs k hk with ⟨hj, hn⟩
    rw [List.flatten_append, List.mem_append] at hj
    rcases hj with hj | hj
    · exfalso
      have hsome := hcov k hj
      rw [hn] at hsome
      simp at hsome
    · refine ⟨hj, ?_⟩
      rw [hrun]
      exact hn

/-- A concrete compute function that raises exactly on the argument list
`["b"]` and otherwise returns one vector per keyword. -/
def failOnB : List String → Except Unit (List (List Int)) :=
  fun l => if l = ["b"] then Except.error () else Except.ok (l.map (fun _ => [0]))

/-- A concrete compute function that always returns one vector per keyword. -/
def alwaysOk : List String → Except Unit (List (List Int)) :=
  fun l => Except.ok (l.map (fun _ => [0]))

theorem c2_chunk_failure_isolation_and_retry_witness :
    (resolve 1 failOnB (fun v => v) [] ["a", "b", "c"]).err = some () ∧
    (resolve 1 failOnB (fun v => v) [] ["a", "b", "c"]).store =
      (runChunks failOnB (fun v => v) [["a"]] [] []).store ∧
    (∀ k ∈ ([["a"]] : List (List String)).flatten,
      (lookupKV (resolve 1 failOnB (fun v => v) [] ["a", "b", "c"]).store k).isSome) ∧
    (resolve 1 failOnB (fun v => v) [] ["a", "b", "c"]).calls =
      (runChunks failOnB (fun v => v) [["a"]] [] []).calls ++
        [newToCompute (runChunks failOnB (fun v => v) [["a"]] [] []).store ["b"]] ∧
    (resolve 1 alwaysOk (fun v => v)
      (resolve 1 failOnB (fun v => v) [] ["a", "b", "c"]).store ["a", "b", "c"]).err = none ∧
    (∀ args ∈ (resolve 1 alwaysOk (fun v => v)
        (resolve 1 failOnB (fun v => v) [] ["a", "b", "c"]).store ["a", "b", "c"]).calls,
      ∀ k ∈ args, k ∈ (["b"] :: [["c"]] : List (List String)).flatten ∧
        lookupKV (resolve 1 failOnB (fun v => v) [] ["a", "b", "c"]).store k = none) :=
  c2_chunk_failure_isolation_and_retry 1 ["a", "b", "c"] failOnB alwaysOk (fun v => v)
    [] [["a"]] ["b"] [["c"]] () rfl
    (by
      intro l vs h
      unfold failOnB at h
      by_cases hb : l = ["b"]
      · rw [if_pos hb] at h
        exact absurd h (by simp)
      · rw [if_neg hb] at h
        simp only [Except.ok.injEq] at h
        rw [← h]
        simp)
    rfl (by decide) rfl
    (fun l _ => ⟨l.map (fun _ => [0]), rfl⟩)

/-! ### The resumable keyword-extraction driver (03_extract_story_keywords) -/

/-- A candidate item of the keyword-extraction stage; only `story_id` (the
dedup key) drives the control flow. -/
structure Story where
  story_id : String
deriving Repr, DecidableEq

/-- The result of `extract_keywords`: the parsed `LLM` and `DEV` keyword lists
of the LLM response (`none` models a JSON `null`). -/
structure StoryKeywords where
  llm : Option (List String)
  dev : Option (List String)
deriving Repr, DecidableEq

/-- Serialization as by `json.dumps` on a list of strings without characters needing escapes. -/
def jsonDumps (l : List String) : String :=
  "[" ++ String.intercalate ", " (l.map (fun s => "\"" ++ s ++ "\"")) ++ "]"

/-- The field serialization of `save_story_keywords`:
`json.dumps(keywords[...]) if keywords[...] else "[]"` — a missing (`None`) or
empty keyword list is written as the literal `"[]"`. -/
def serializeKeywords : Option (List String) → String
  | none => "[]"
  | some [] => "[]"
  | some l => jsonDumps l

/-- The CSV row appended by `save_story_keywords`:
`(story_id, llm_keywords, dev_keywords)`. -/
def mkRow (sid : String) (kw : StoryKeywords) : String × String × String :=
  (sid, serializeKeywords kw.llm, serializeKeywords kw.dev)

/-- As `get_processed_story_ids`: the story ids recorded in the ledger rows. -/
def ledgerIds (L : List (String × String × String)) : List String :=
  L.map (fun r => r.1)

/-- Observable outcome of one driver run: the final ledger, the story ids
passed to `process_single_story` (and hence to the extraction handler), in
order, and the story ids whose handler raised (logged failures). -/
structure DriverOut where
  ledger : List (String × String × String)
  attempted : List String
  failures : List String
deriving Repr, DecidableEq

/-- The processing loop of `03_extract_story_keywords.ipynb`: skip items whose
id is in the `processed_story_ids` set loaded at start (the set is not
refreshed during the run); otherwise call the handler; on success append the
row to the ledger; on exception log the failure and continue. -/
def runDriverAux {E : Type} (handler : Story → Except E StoryKeywords)
    (processed : List String) :
    List Story → List (String × String × String) → DriverOut
  | [], L => ⟨L, [], []⟩
  | it :: rest, L =>
    if it.story_id ∈ processed then runDriverAux handler processed rest L
    else
      match handler it with
      | Except.ok kw =>
        let r := runDriverAux handler processed rest (L ++ [mkRow it.story_id kw])
        ⟨r.ledger, it.story_id :: r.attempted, r.failures⟩
      | Except.error _ =>
        let r := runDriverAux handler processed rest L
        ⟨r.ledger, it.story_id :: r.attempted, it.story_id :: r.failures⟩

/-- A whole driver run: load the completed set from the ledger, then process
the candidate items. -/
def runDriver {E : Type} (handler : Story → Except E StoryKeywords)
    (L0 : List (String × String × String)) (items : List Story) : DriverOut :=
  runDriverAux handler (ledgerIds L0) items L0

/-- An item whose id is in the loaded completed set is never attempted. -/
theorem runDriverAux_skip_processed {E : Type} (handler : Story → Except E StoryKeywords)
    (processed : List String) (items : List Story)
    (L : List (String × String × String)) (K : String) (hK : K ∈ processed) :
    K ∉ (runDriverAux handler processed items L).attempted := by
  induction items generalizing L with
  | nil =>
    simp [runDriverAux]
  | cons it rest ih =>
    rw [runDriverAux]
    by_cases hs : it.story_id ∈ processed
    · rw [if_pos hs]
      exact ih L
    · rw [if_neg hs]
      have hne : K ≠ it.story_id := fun h => hs (h ▸ hK)
      cases hh : handler it with
      | ok kw =>
        simp only [List.mem_cons, not_or]
        exact ⟨hne, ih _⟩
      | error e =>
        simp only [List.mem_cons, not_or]
        exact ⟨hne, ih L⟩

/-- The ledger is append-only: a run only extends it. -/
theorem runDriverAux_ledger_extends {E : Type} (handler : Story → Except E StoryKeywords)
    (processed : List String) (items : List Story)
    (L : List (String × String × String)) :
    ∃ ext, (runDriverAux handler processed items L).ledger = L ++ ext := by
  induction items generalizing L with
  | nil => exact ⟨[], by simp [runDriverAux]⟩
  | cons it rest ih =>
    rw [runDriverAux]
    by_cases hs : it.story_id ∈ processed
    · rw [if_pos hs]
      exact ih L
    · rw [if_neg hs]
      cases hh : handler it with
      | ok kw =>
        rcases ih (L ++ [mkRow it.story_id kw]) with ⟨ext, hext⟩
        exact ⟨[mkRow it.story_id kw] ++ ext, by simp [hext]⟩
      | error e =>
        exact ih L

/-- An item whose id is not in the loaded completed set and occurs among the
candidates is attempted, regardless of other items' outcomes. -/
theorem runDriverAux_attempts_unprocessed {E : Type}
    (handler : Story → Except E StoryKeywords) (processed : List String)
    (items : List Story) (L : List (String × String × String)) (K : String)
    (hK : K ∉ processed) (hexists : ∃ it ∈ items, it.story_id = K) :
    K ∈ (runDriverAux handler processed items L).attempted := by
  induction items generalizing L with
  | nil =>
    rcases hexists with ⟨it, hit, -⟩
    simp at hit
  | cons it rest ih =>
    rw [runDriverAux]
    rcases hexists with ⟨jt, hjt, hjK⟩
    by_cases hs : it.story_id ∈ processed
    · rw [if_pos hs]
      rcases List.mem_cons.mp hjt with rfl | hjt
      · exact absurd (hjK ▸ hs) hK
      · exact ih L ⟨jt, hjt, hjK⟩
    · rw [if_neg hs]
      rcases List.mem_cons.mp hjt with rfl | hjt
      · cases hh : handler jt with
        | ok kw => exact hjK ▸ List.mem_cons_self _ _
        | error e => exact hjK ▸ List.mem_cons_self _ _
      · cases hh : handler it with
        | ok kw => exact List.mem_cons_of_mem _ (ih _ ⟨jt, hjt, hjK⟩)
        | error e => exact List.mem_cons_of_mem _ (ih L ⟨jt, hjt, hjK⟩)

/-- Ghost characterization: the ids of the items the run appends a row for —
those not skipped whose handler succeeds, in order. -/
def successIds {E : Type} (handler : Story → Except E StoryKeywords)
    (processed : List String) : List Story → List String
  | [] => []
  | it :: rest =>
    if it.story_id ∈ processed then successIds handler processed rest
    else
      match handler it with
      | Except.ok _ => it.story_id :: successIds handler processed rest
      | Except.error _ => successIds handler processed rest

/-- The final ledger's ids are the initial ids followed by exactly the ids of
the successfully handled items, in order: a row is appended exactly when the
handler succeeded. -/
theorem ledgerIds_runDriverAux {E : Type} (handler : Story → Except E StoryKeywords)
    (processed : List String) (items : List Story)
    (L : List (String × String × String)) :
    ledgerIds (runDriverAux handler processed items L).ledger =
      ledgerIds L ++ successIds handler processed items := by
  induction items generalizing L with
  | nil =>
    simp [runDriverAux, successIds]
  | cons it rest ih =>
    rw [runDriverAux, successIds]
    by_cases hs : it.story_id ∈ processed
    · rw [if_pos hs, if_pos hs, ih]
    · rw [if_neg hs, if_neg hs]
      cases hh : handler it with
      | ok kw =>
        show ledgerIds (runDriverAux handler processed rest
          (L ++ [mkRow it.story_id kw])).ledger = _
        rw [ih]
        simp [ledgerIds, mkRow]
      | error e =>
        exact ih L

/-- Membership in `successIds`: an item with that id occurs, is not skipped,
and its handler succeeds. -/
theorem mem_successIds {E : Type} (handler : Story → Except E StoryKeywords)
    (processed : List String) (items : List Story) (K : String) :
    K ∈ successIds handler processed items ↔
      ∃ it ∈ items, it.story_id ∉ processed ∧ it.story_id = K ∧
        ∃ kw, handler it = Except.ok kw := by
  induction items with
  | nil => simp [successIds]
  | cons it rest ih =>
    rw [successIds]
    by_cases hs : it.story_id ∈ processed
    · rw [if_pos hs, ih]
      constructor
      · rintro ⟨jt, hjt, hj⟩
        exact ⟨jt, List.mem_cons_of_mem _ hjt, hj⟩
      · rintro ⟨jt, hjt, hj⟩
        rcases List.mem_cons.mp hjt with heq | hjt
        · exact absurd (heq ▸ hs) hj.1
        · exact ⟨jt, hjt, hj⟩
    · rw [if_neg hs]
      cases hh : handler it with
      | ok kw =>
        simp only [List.mem_cons, ih]
        constructor
        · rintro (rfl | ⟨jt, hjt, hj⟩)
          · exact ⟨it, Or.inl rfl, hs, rfl, kw, hh⟩
          · exact ⟨jt, Or.inr hjt, hj⟩
        · rintro ⟨jt, rfl | hjt, hj⟩
          · exact Or.inl hj.2.1.symm
          · exact Or.inr ⟨jt, hjt, hj⟩
      | error e =>
        rw [ih]
        constructor
        · rintro ⟨jt, hjt, hj⟩
          exact ⟨jt, List.mem_cons_of_mem _ hjt, hj⟩
        · rintro ⟨jt, hjt, hj⟩
          rcases List.mem_cons.mp hjt with heq | hjt
          · rcases hj.2.2 with ⟨kw, hkw⟩
            rw [heq, hh] at hkw
            exact absurd hkw (by simp)
          · exact ⟨jt, hjt, hj⟩

/-- Decomposing a run over a concatenated candidate list. -/
theorem runDriverAux_append {E : Type} (handler : Story → Except E StoryKeywords)
    (processed : List String) (xs ys : List Story)
    (L : List (String × String × String)) :
    runDriverAux handler processed (xs ++ ys) L =
      ⟨(runDriverAux handler processed ys
          (runDriverAux handler processed xs L).ledger).ledger,
       (runDriverAux handler processed xs L).attempted ++
         (runDriverAux handler processed ys
           (runDriverAux handler processed xs L).ledger).attempted,
       (runDriverAux handler processed xs L).failures ++
         (runDriverAux handler processed ys
           (runDriverAux handler processed xs L).ledger).failures⟩ := by
  induction xs generalizing L with
  | nil =>
    simp only [List.nil_append, runDriverAux]
  | cons it rest ih =>
    rw [List.cons_append, runDriverAux]
    conv_rhs => rw [runDriverAux]
    by_cases hs : it.story_id ∈ processed
    · rw [if_pos hs, if_pos hs]
      exact ih _
    · rw [if_neg hs, if_neg hs]
      cases hh : handler it with
      | ok kw =>
        simp only
        rw [ih _]
        simp
      | error e =>
        simp only
        rw [ih L]
        simp

/-! ### Claim C3 -/

/-- C3, counterexample to the claim as stated: with an empty initial ledger
and the duplicate candidate sequence `[a, a]`, the first occurrence of story
`a` succeeds and is recorded as Done in the ledger (as the one-item run
shows), yet the second occurrence is still passed to the handler later in the
same run — the in-memory completed set is loaded once at start and never
refreshed. -/
theorem c3_counterexample_duplicate_in_same_run :
    (runDriver (fun _ => (Except.ok ⟨some ["x"], none⟩ : Except Unit StoryKeywords)) []
      [⟨"a"⟩, ⟨"a"⟩]).attempted = ["a", "a"] ∧
    ledgerIds (runDriver (fun _ => (Except.ok ⟨some ["x"], none⟩ : Except Unit StoryKeywords))
      [] [⟨"a"⟩]).ledger = ["a"] := by
  constructor
  · decide
  · decide

/-- C3, amended: an item whose story_id is recorded as Done in the ledger at
the moment a run starts is never passed to the per-item handler during that
run, and — the ledger being append-only — also not in any subsequent run
started from the ledger that run produces, even under a different handler.
(For an item that becomes Done only mid-run this needs the candidate sequence
to not repeat its story_id, which upstream deduplication provides; the
counterexample shows the duplicate case.) -/
theorem c3_done_at_start_never_reattempted {E1 E2 : Type}
    (h1 : Story → Except E1 StoryKeywords) (h2 : Story → Except E2 StoryKeywords)
    (L0 : List (String × String × String)) (items1 items2 : List Story) (K : String)
    (hK : K ∈ ledgerIds L0) :
    K ∉ (runDriver h1 L0 items1).attempted ∧
    K ∉ (runDriver h2 (runDriver h1 L0 items1).ledger items2).attempted := by
  constructor
  · exact runDriverAux_skip_processed h1 (ledgerIds L0) items1 L0 K hK
  · have hK2 : K ∈ ledgerIds (runDriver h1 L0 items1).ledger := by
      rcases runDriverAux_ledger_extends h1 (ledgerIds L0) items1 L0 with ⟨ext, hext⟩
      rw [runDriver, hext]
      simp only [ledgerIds, List.map_append, List.mem_append]
      exact Or.inl hK
    exact runDriverAux_skip_processed h2 _ items2 _ K hK2

theorem c3_done_at_start_never_reattempted_witness :
    "a" ∈ ledgerIds [("a", "[]", "[]")] ∧
    "a" ∉ (runDriver (fun _ => (Except.ok ⟨some ["x"], none⟩ : Except Unit StoryKeywords))
      [("a", "[]", "[]")] [⟨"a"⟩, ⟨"b"⟩]).attempted ∧
    "a" ∉ (runDriver (fun _ => (Except.error () : Except Unit StoryKeywords))
      (runDriver (fun _ => (Except.ok ⟨some ["x"], none⟩ : Except Unit StoryKeywords))
        [("a", "[]", "[]")] [⟨"a"⟩, ⟨"b"⟩]).ledger [⟨"a"⟩]).attempted := by
  refine ⟨by decide, ?_⟩
  exact c3_done_at_start_never_reattempted
    (fun _ => (Except.ok ⟨some ["x"], none⟩ : Except Unit StoryKeywords))
    (fun _ => (Except.error () : Except Unit StoryKeywords))
    [("a", "[]", "[]")] [⟨"a"⟩, ⟨"b"⟩] [⟨"a"⟩] "a" (by decide)

/-! ### Claim C6 -/

/-- C6: a handler exception for one item is caught at single-item granularity:
the item is recorded in the failure log, nothing is appended to the ledger
for it, and the remaining items are processed exactly as they would have been
from the same ledger — no single item's exception terminates the run. -/
theorem c6_handler_exception_isolated {E : Type}
    (handler : Story → Except E StoryKeywords)
    (L0 : List (String × String × String)) (pre post : List Story)
    (it : Story) (e : E)
    (hfail : handler it = Except.error e)
    (hnew : it.story_id ∉ ledgerIds L0) :
    runDriver handler L0 (pre ++ it :: post) =
      ⟨(runDriverAux handler (ledgerIds L0) post
          (runDriver handler L0 pre).ledger).ledger,
       (runDriver handler L0 pre).attempted ++ it.story_id ::
         (runDriverAux handler (ledgerIds L0) post
           (runDriver handler L0 pre).ledger).attempted,
       (runDriver handler L0 pre).failures ++ it.story_id ::
         (runDriverAux handler (ledgerIds L0) post
           (runDriver handler L0 pre).ledger).failures⟩ := by
  rw [runDriver, runDriverAux_append, runDriverAux, if_neg hnew, hfail]
  rw [runDriver]

theorem c6_handler_exception_isolated_witness :
    runDriver (fun st => if st.story_id = "b"
        then (Except.error () : Except Unit StoryKeywords)
        else Except.ok ⟨some ["x"], none⟩)
      [] ([⟨"a"⟩] ++ ⟨"b"⟩ :: [⟨"c"⟩]) =
      ⟨(runDriverAux (fun st => if st.story_id = "b"
          then (Except.error () : Except Unit StoryKeywords)
          else Except.ok ⟨some ["x"], none⟩) (ledgerIds []) [⟨"c"⟩]
          (runDriver (fun st => if st.story_id = "b"
            then (Except.error () : Except Unit StoryKeywords)
            else Except.ok ⟨some ["x"], none⟩) [] [⟨"a"⟩]).ledger).ledger,
       (runDriver (fun st => if st.story_id = "b"
          then (Except.error () : Except Unit StoryKeywords)
          else Except.ok ⟨some ["x"], none⟩) [] [⟨"a"⟩]).attempted ++ "b" ::
         (runDriverAux (fun st => if st.story_id = "b"
            then (Except.error () : Except Unit StoryKeywords)
            else Except.ok ⟨some ["x"], none⟩) (ledgerIds []) [⟨"c"⟩]
            (runDriver (fun st => if st.story_id = "b"
              then (Except.error () : Except Unit StoryKeywords)
              else Except.ok ⟨some ["x"], none⟩) [] [⟨"a"⟩]).ledger).attempted,
       (runDriver (fun st => if st.story_id = "b"
          then (Except.error () : Except Unit StoryKeywords)
          else Except.ok ⟨some ["x"], none⟩) [] [⟨"a"⟩]).failures ++ "b" ::
         (runDriverAux (fun st => if st.story_id = "b"
            then (Except.error () : Except Unit StoryKeywords)
            else Except.ok ⟨some ["x"], none⟩) (ledgerIds []) [⟨"c"⟩]
            (runDriver (fun st => if st.story_id = "b"
              then (Except.error () : Except Unit StoryKeywords)
              else Except.ok ⟨some ["x"], none⟩) [] [⟨"a"⟩]).ledger).failures⟩ :=
  c6_handler_exception_isolated
    (fun st => if st.story_id = "b"
      then (Except.error () : Except Unit StoryKeywords)
      else Except.ok ⟨some ["x"], none⟩)
    [] [⟨"a"⟩] [⟨"c"⟩] ⟨"b"⟩ () rfl (by decide)

/-! ### Claim C9 -/

/-- C9: a row for story K is appended to the ledger exactly when some
candidate with that id had its keyword extraction succeed; in particular, if
the handler raises for every occurrence of K, nothing is appended for K, so K
is absent from the completed set derived at the next driver start and the
next run passes K to the handler again. -/
theorem c9_row_appended_iff_success {E1 E2 : Type}
    (h1 : Story → Except E1 StoryKeywords) (h2 : Story → Except E2 StoryKeywords)
    (L0 : List (String × String × String)) (items1 : List Story) (K : String)
    (hK : K ∉ ledgerIds L0) :
    (K ∈ ledgerIds (runDriver h1 L0 items1).ledger ↔
      ∃ it ∈ items1, it.story_id = K ∧ ∃ kw, h1 it = Except.ok kw) ∧
    ((∀ it ∈ items1, it.story_id = K → ∀ kw, h1 it ≠ Except.ok kw) →
      ∀ items2 : List Story, (∃ it ∈ items2, it.story_id = K) →
        K ∈ (runDriver h2 (runDriver h1 L0 items1).ledger items2).attempted) := by
  have hiff : K ∈ ledgerIds (runDriver h1 L0 items1).ledger ↔
      ∃ it ∈ items1, it.story_id = K ∧ ∃ kw, h1 it = Except.ok kw := by
    rw [runDriver, ledgerIds_runDriverAux, List.mem_append]
    constructor
    · rintro (h | h)
      · exact absurd h hK
      · rcases (mem_successIds h1 _ items1 K).mp h with ⟨it, hit, -, hid, hkw⟩
        exact ⟨it, hit, hid, hkw⟩
    · rintro ⟨it, hit, hid, hkw⟩
      refine Or.inr ((mem_successIds h1 _ items1 K).mpr ⟨it, hit, ?_, hid, hkw⟩)
      rw [hid]
      exact hK
  refine ⟨hiff, ?_⟩
  intro hfailall items2 hexists
  have hnot : K ∉ ledgerIds (runDriver h1 L0 items1).ledger := by
    intro hmem
    rcases hiff.mp hmem with ⟨it, hit, hid, kw, hkw⟩
    exact hfailall it hit hid kw hkw
  exact runDriverAux_attempts_unprocessed h2 _ items2 _ K hnot hexists

theorem c9_row_appended_iff_success_witness :
    "a" ∉ ledgerIds ([] : List (String × String × String)) ∧
    ((("a" ∈ ledgerIds (runDriver (fun _ => (Except.error () : Except Unit StoryKeywords))
        [] [⟨"a"⟩]).ledger) ↔
      ∃ it ∈ [(⟨"a"⟩ : Story)], it.story_id = "a" ∧
        ∃ kw, (fun _ => (Except.error () : Except Unit StoryKeywords)) it =
          Except.ok kw) ∧
    ((∀ it ∈ [(⟨"a"⟩ : Story)], it.story_id = "a" →
        ∀ kw, (fun _ => (Except.error () : Except Unit StoryKeywords)) it ≠
          Except.ok kw) →
      ∀ items2 : List Story, (∃ it ∈ items2, it.story_id = "a") →
        "a" ∈ (runDriver (fun _ => (Except.ok ⟨none, none⟩ : Except Unit StoryKeywords))
          (runDriver (fun _ => (Except.error () : Except Unit StoryKeywords))
            [] [⟨"a"⟩]).ledger items2).attempted)) :=
  ⟨by decide, c9_row_appended_iff_success
    (fun _ => (Except.error () : Except Unit StoryKeywords))
    (fun _ => (Except.ok ⟨none, none⟩ : Except Unit StoryKeywords))
    [] [⟨"a"⟩] "a" (by decide)⟩

/-! ### JSON list-of-strings codec (keyword source format, C8) -/

/-- How `json.loads` fails in the read path of
`04_embed_story_keywords.ipynb`: a missing CSV cell is a pandas NaN, on which
`json.loads` raises `TypeError`; malformed text raises `JSONDecodeError`. -/
inductive JsonErr where
  | typeError
  | decodeError
deriving Repr, DecidableEq

def dropWs (cs : List Char) : List Char :=
  cs.dropWhile (fun c => decide (c = ' ' ∨ c = '\t' ∨ c = '\n' ∨ c = '\r'))

def readStrBody : List Char → List Char → Option (String × List Char)
  | [], _ => none
  | '"' :: rest, acc => some (String.mk acc.reverse, rest)
  | '\\' :: _, _ => none
  | c :: rest, acc => readStrBody rest (c :: acc)

def readString : List Char → Option (String × List Char)
  | '"' :: rest => readStrBody rest []
  | _ => none

def readItems : Nat → List Char → Option (List String × List Char)
  | 0, _ => none
  | fuel + 1, cs =>
    match readString (dropWs cs) with
    | none => none
    | some (s, rest) =>
      match dropWs rest with
      | ',' :: rest2 =>
        match readItems fuel rest2 with
        | none => none
        | some (l, rem) => some (s :: l, rem)
      | ']' :: rest2 => some ([s], rest2)
      | _ => none

/-- Parsing as by `json.loads` restricted to JSON arrays of strings (the keyword source
format; string escapes are not modelled — keywords are plain text). -/
def parseStrList (s : String) : Except JsonErr (List String) :=
  match dropWs s.toList with
  | '[' :: rest =>
    match dropWs rest with
    | ']' :: rest2 =>
      if dropWs rest2 = [] then Except.ok [] else Except.error JsonErr.decodeError
    | _ =>
      match readItems (rest.length + 1) rest with
      | some (l, rem) =>
        if dropWs rem = [] then Except.ok l else Except.error JsonErr.decodeError
      | none => Except.error JsonErr.decodeError
  | _ => Except.error JsonErr.decodeError

/-- One cell of `df[col].apply(json.loads)`: a missing cell (pandas NaN)
makes `json.loads` raise `TypeError`; present text is parsed. -/
def parseKeywordField : Option String → Except JsonErr (List String)
  | none => Except.error JsonErr.typeError
  | some s => parseStrList s

/-! ### Claim C8 -/

/-- C8, counterexample to the claim as stated: parsing a literally missing
keyword-list field raises a TypeError (json.loads on a pandas NaN), and
parsing an empty text field raises a decode error — neither yields an empty
list without error. -/
theorem c8_counterexample_missing_field_raises :
    parseKeywordField none = Except.error JsonErr.typeError ∧
    parseKeywordField (some "") = Except.error JsonErr.decodeError := by
  constructor
  · rfl
  · rfl

/-- C8, amended: the pipeline's writer never produces an empty or missing
field — an empty or missing (null) keyword list is serialized by
`save_story_keywords` as the literal `"[]"`, and parsing that field yields the
empty keyword list without error. A field that is literally absent or empty
text, which the writer never emits, does raise. -/
theorem c8_empty_keywords_roundtrip (ks : Option (List String))
    (h : ks = none ∨ ks = some []) :
    serializeKeywords ks = "[]" ∧
    parseKeywordField (some (serializeKeywords ks)) = Except.ok [] := by
  rcases h with rfl | rfl
  · exact ⟨rfl, rfl⟩
  · exact ⟨rfl, rfl⟩

theorem c8_empty_keywords_roundtrip_witness :
    ((none : Option (List String)) = none ∨ (none : Option (List String)) = some []) ∧
    serializeKeywords none = "[]" ∧
    parseKeywordField (some (serializeKeywords none)) = Except.ok [] :=
  ⟨Or.inl rfl, c8_empty_keywords_roundtrip none (Or.inl rfl)⟩

/-! ### Claim C10 -/

/-- One row of `stories_deduplicated_meta.csv` after the `json.loads` parse:
the `llm_keywords` and `dev_keywords` columns as lists whose elements may be
JSON nulls. -/
structure StoryMeta where
  llm_keywords : List (Option String)
  dev_keywords : List (Option String)

/-- The `all_keywords` vocabulary:
`pd.concat([llm_keywords, dev_keywords]).dropna().unique()` — all LLM keyword
list elements in row order, then all DEV ones, nulls dropped, deduplicated by
first occurrence. (`explode` of an empty list yields one NaN, which `dropna`
removes, so the net effect is flat concatenation.) -/
def allKeywords (rows : List StoryMeta) : List String :=
  uniqueFirst (((rows.map (fun r => r.llm_keywords)).flatten ++
    (rows.map (fun r => r.dev_keywords)).flatten).filterMap id)

theorem chunksOfAux_nodup {α : Type} (B fuel : Nat) (l : List α) (hl : l.Nodup) :
    ∀ c ∈ chunksOfAux B fuel l, c.Nodup := by
  induction fuel generalizing l with
  | zero =>
    intro c hc
    simp [chunksOfAux] at hc
  | succ fuel ih =>
    intro c hc
    cases l with
    | nil => simp [chunksOfAux] at hc
    | cons x xs =>
      rw [chunksOfAux] at hc
      rcases List.mem_cons.mp hc with rfl | hc
      · exact ((x :: xs).take_sublist B).nodup hl
      · exact ih ((x :: xs).drop B) (((x :: xs).drop_sublist B).nodup hl) c hc

/-- Slices of a duplicate-free list are duplicate-free. -/
theorem chunksOf_nodup {α : Type} (B : Nat) (l : List α) (hl : l.Nodup) :
    ∀ c ∈ chunksOf B l, c.Nodup := by
  intro c hc
  unfold chunksOf at hc
  by_cases hB : B = 0
  · rw [if_pos hB] at hc
    simp at hc
  · rw [if_neg hB] at hc
    exact chunksOfAux_nodup B l.length l hl c hc

/-- C10: the keyword vocabulary handed to the batch loop — built by
concatenating the parsed LLM and DEV keyword lists, dropping nulls and taking
unique values — contains each keyword at most once, so within a single run no
chunk of the batch loop ever contains a duplicate keyword. -/
theorem c10_vocabulary_unique_no_duplicate_chunks (rows : List StoryMeta) (B : Nat) :
    (allKeywords rows).Nodup ∧
    ∀ c ∈ chunksOf B (allKeywords rows), c.Nodup :=
  ⟨uniqueFirst_nodup _, chunksOf_nodup B (allKeywords rows) (uniqueFirst_nodup _)⟩

theorem c10_vocabulary_unique_no_duplicate_chunks_witness :
    (allKeywords [⟨[some "ai", none, some "rust"], [some "ai"]⟩]).Nodup ∧
    (["ai"] : List String).Nodup :=
  ⟨(c10_vocabulary_unique_no_duplicate_chunks
      [⟨[some "ai", none, some "rust"], [some "ai"]⟩] 1).1,
   (c10_vocabulary_unique_no_duplicate_chunks
      [⟨[some "ai", none, some "rust"], [some "ai"]⟩] 1).2 ["ai"] (by decide)⟩

/-! ### Claim C5, amended theorem -/

/-- Restatement of the amended C5 claim in its own words, to be compared with
the source loop: chunks are processed in order with the store threaded along;
at each chunk the missing list is the chunk filtered, keeping order and
multiplicity, to the keywords with no vector in the store state current at
that chunk; a chunk yields exactly one `Option` slot — `none` (no call) when
its missing list is empty, otherwise one call with exactly that list; after a
successful call the coerced vectors are added for the following chunks, and on
a failed call no later chunk is processed. -/
def specCallsPerChunk {V E : Type} (compute : List String → Except E (List V))
    (coerce : V → V) : List (List String) → List (String × V) → List (Option (List String))
  | [], _ => []
  | c :: cs, s =>
    if (c.filter (fun k => (lookupKV s k).isNone)).isEmpty then
      none :: specCallsPerChunk compute coerce cs s
    else
      match compute (c.filter (fun k => (lookupKV s k).isNone)) with
      | Except.error _ => [some (c.filter (fun k => (lookupKV s k).isNone))]
      | Except.ok vs =>
        some (c.filter (fun k => (lookupKV s k).isNone)) ::
          specCallsPerChunk compute coerce cs
            (addEmbeddings s (((c.filter (fun k => (lookupKV s k).isNone)).zip vs).map
              (fun p => (p.1, coerce p.2))))

theorem updateKV_nil {V : Type} (d : List (String × V)) : updateKV d [] = d := rfl

/-- One `Option` slot per processed chunk: the spec trace is never longer than
the chunk list. -/
theorem specCallsPerChunk_length_le {V E : Type} (compute : List String → Except E (List V))
    (coerce : V → V) (cs : List (List String)) (s : List (String × V)) :
    (specCallsPerChunk compute coerce cs s).length ≤ cs.length := by
  induction cs generalizing s with
  | nil => exact Nat.le_refl 0
  | cons c cs ih =>
    rw [specCallsPerChunk]
    by_cases he : (c.filter (fun k => (lookupKV s k).isNone)).isEmpty
    · rw [if_pos he]
      exact Nat.succ_le_succ (ih s)
    · rw [if_neg he]
      cases hc : compute (c.filter (fun k => (lookupKV s k).isNone)) with
      | error e => exact Nat.succ_le_succ (Nat.zero_le _)
      | ok vs => exact Nat.succ_le_succ (ih _)

/-- The source loop's compute-call trace is exactly the calls of the per-chunk
specification: the run makes the spec's calls, in chunk order, and no others. -/
theorem runChunks_calls_eq_spec {V E : Type} (compute : List String → Except E (List V))
    (coerce : V → V) (cs : List (List String)) (s a : List (String × V)) :
    (runChunks compute coerce cs s a).calls =
      (specCallsPerChunk compute coerce cs s).filterMap id := by
  induction cs generalizing s a with
  | nil => rfl
  | cons c cs ih =>
    have hfe : c.filter (fun k => (lookupKV s k).isNone) = newToCompute s c :=
      (newToCompute_eq_filter s c).symm
    rw [specCallsPerChunk, hfe]
    by_cases he : (newToCompute s c).isEmpty
    · rw [if_pos he, runChunks_cons_skip compute coerce c cs s a he]
      simp only [List.filterMap_cons, id]
      exact ih s _
    · rw [if_neg he]
      cases hc : compute (newToCompute s c) with
      | error e =>
        rw [runChunks_cons_error compute coerce c cs s a e he hc]
        simp [List.filterMap_cons]
      | ok vs =>
        rw [runChunks_cons_ok compute coerce c cs s a vs he hc]
        simp only [List.filterMap_cons, id]
        by_cases hp : (((newToCompute s c).zip vs).map
            (fun p => (p.1, coerce p.2))).isEmpty
        · have hnil : ((newToCompute s c).zip vs).map (fun p => (p.1, coerce p.2)) = [] :=
            List.isEmpty_iff.mp hp
          simp only [hp, if_pos]
          rw [show addEmbeddings s (((newToCompute s c).zip vs).map
            (fun p => (p.1, coerce p.2))) = s by rw [hnil]; exact updateKV_nil s]
          exact congrArg _ (ih s _)
        · simp only [hp, Bool.false_eq_true, if_neg, not_false_eq_true]
          exact congrArg _ (ih _ _)

/-- C5, amended: for every chunk, the list handed to the external compute
function consists of exactly those chunk keywords that have no existing vector
in the store state current when the chunk is processed, in the chunk's
original relative order and with the chunk's original multiplicity (duplicates
within a chunk are not removed); compute is invoked at most once per chunk,
only when that list is non-empty. Formally: the resolve's call trace equals,
exactly, the per-chunk specification trace `specCallsPerChunk` (which makes at
most one call per processed chunk, with the current-state missing list as its
argument, only when non-empty). -/
theorem c5_calls_exactly_missing_per_chunk {V E : Type} (B : Nat)
    (compute : List String → Except E (List V)) (coerce : V → V)
    (store : List (String × V)) (kws : List String) :
    (resolve B compute coerce store kws).calls =
      (specCallsPerChunk compute coerce (chunksOf B kws) store).filterMap id ∧
    (specCallsPerChunk compute coerce (chunksOf B kws) store).length ≤
      (chunksOf B kws).length :=
  ⟨runChunks_calls_eq_spec compute coerce (chunksOf B kws) store [],
   specCallsPerChunk_length_le compute coerce (chunksOf B kws) store⟩

theorem c5_calls_exactly_missing_per_chunk_witness :
    (resolve 2
      (fun l => (Except.ok (l.map (fun _ => [0])) : Except Unit (List (List Int))))
      (fun v => v) [("b", [9])] ["a", "b", "c"]).calls =
      (specCallsPerChunk
        (fun l => (Except.ok (l.map (fun _ => [0])) : Except Unit (List (List Int))))
        (fun v => v) (chunksOf 2 ["a", "b", "c"]) [("b", [9])]).filterMap id ∧
    (specCallsPerChunk
      (fun l => (Except.ok (l.map (fun _ => [0])) : Except Unit (List (List Int))))
      (fun v => v) (chunksOf 2 ["a", "b", "c"]) [("b", [9])]).length ≤
      (chunksOf 2 (["a", "b", "c"] : List String)).length :=
  c5_calls_exactly_missing_per_chunk 2
    (fun l => (Except.ok (l.map (fun _ => [0])) : Except Unit (List (List Int))))
    (fun v => v) [("b", [9])] ["a", "b", "c"]
